import Mathlib

/-!
Verification development for the ingredient spell-correction pipeline
(robotoff/ingredients.py).

Strings are modelled as List Char.  Python character classes are modelled at
the ASCII level (the inputs handled by the pipeline are covered by this
model; Char.isDigit, Char.toLower, Char.toUpper are the ASCII operations).

The regular expression
  BLACKLIST_RE = (?:\d+(?:[,.]\d+)?\s*%)|(?:E ?\d{3,5}[a-z]*)|(?:[_•:0-9])
is embedded as a deterministic matcher: for this particular pattern the
greedy, first-alternative-wins strategy of the Python engine never needs
backtracking across sub-expressions (every quantified sub-expression is
followed by material that cannot match the characters the quantifier gave
up), so a straight greedy scan computes exactly the match Python finds.
-/

/-- Python str.isdigit for one ASCII char, i.e. the regex class \d. -/
def isDigitChar (c : Char) : Bool := c.isDigit

/-- The regex class \s (ASCII whitespace, as matched by the Python engine). -/
def isPySpace (c : Char) : Bool :=
  c = ' ' || c = '\t' || c = '\n' || c = '\r' || c = '\x0b' || c = '\x0c'

/-- The regex class [a-z]. -/
def isLowerAZ (c : Char) : Bool := 'a' ≤ c && c ≤ 'z'

/-- Length of the maximal leading run of digits (greedy \d+ and \d*). -/
def digitRun : List Char → Nat
  | [] => 0
  | c :: cs => if isDigitChar c then digitRun cs + 1 else 0

/-- Length of the maximal leading run of \s characters (greedy \s*). -/
def spaceRun : List Char → Nat
  | [] => 0
  | c :: cs => if isPySpace c then spaceRun cs + 1 else 0

/-- Length of the maximal leading run of [a-z] characters (greedy [a-z]*). -/
def lowerRun : List Char → Nat
  | [] => 0
  | c :: cs => if isLowerAZ c then lowerRun cs + 1 else 0

/-- The optional fractional part (?:[,.]\d+)? of the percentage alternative.
Returns the number of characters it consumes, or none when the alternative
as a whole must fail (a [,.] is present but no digit follows: skipping the
group cannot save the match because [,.] is neither \s nor the literal
percent sign). -/
def fracLen : List Char → Option Nat
  | [] => some 0
  | c :: rest =>
    if c = ',' || c = '.' then
      if digitRun rest = 0 then none else some (1 + digitRun rest)
    else some 0

/-- First alternative of BLACKLIST_RE:  \d+(?:[,.]\d+)?\s*%  matched at the
head of the list; returns the length of the match. -/
def alt1 (cs : List Char) : Option Nat :=
  if digitRun cs = 0 then none
  else
    match fracLen (cs.drop (digitRun cs)) with
    | none => none
    | some g =>
      if (cs.drop (digitRun cs + g + spaceRun (cs.drop (digitRun cs + g)))).head? =
          some '%' then
        some (digitRun cs + g + spaceRun (cs.drop (digitRun cs + g)) + 1)
      else none

/-- The tail  \d{3,5}[a-z]*  of the additive-code alternative, matched
greedily at the head of l; pre is the number of characters already consumed
for the E and the optional space. -/
def eCodeLen (l : List Char) (pre : Nat) : Option Nat :=
  if 3 ≤ digitRun l then
    some (pre + min (digitRun l) 5 + lowerRun (l.drop (min (digitRun l) 5)))
  else none

/-- Second alternative of BLACKLIST_RE:  E ?\d{3,5}[a-z]*  matched at the
head of the list (the optional space is taken exactly when a space is
present, since a space cannot start the digit block). -/
def alt2 (cs : List Char) : Option Nat :=
  match cs with
  | [] => none
  | c :: rest =>
    if c = 'E' then
      match rest with
      | [] => eCodeLen rest 1
      | c2 :: _ => if c2 = ' ' then eCodeLen rest.tail 2 else eCodeLen rest 1
    else none

/-- Third alternative of BLACKLIST_RE: the character class [_•:0-9]. -/
def alt3 (cs : List Char) : Option Nat :=
  match cs with
  | c :: _ => if c = '_' || c = '•' || c = ':' || isDigitChar c then some 1 else none
  | [] => none

/-- Match of BLACKLIST_RE anchored at the head of the list (alternatives
tried left to right, as the Python engine does). -/
def matchAt (cs : List Char) : Option Nat :=
  match alt1 cs with
  | some len => some len
  | none =>
    match alt2 cs with
    | some len => some len
    | none => alt3 cs

/-- First (leftmost) match of BLACKLIST_RE in the list: the (start, end)
pair of next(BLACKLIST_RE.finditer(s)). -/
def findMatchAux : List Char → Option (Nat × Nat)
  | [] => none
  | c :: rest =>
    match matchAt (c :: rest) with
    | some len => some (0, len)
    | none =>
      match findMatchAux rest with
      | some (s, e) => some (s + 1, e + 1)
      | none => none

/-- Python  s[:start] + ' ' * (end - start) + s[end:]  — the blanking step
of normalize_ingredients. -/
def blankRange (cs : List Char) (s e : Nat) : List Char :=
  cs.take s ++ List.replicate (e - s) ' ' ++ cs.drop e

/-- Number of non-space characters; the termination measure of the masking
loop (every BLACKLIST_RE match starts with a non-space character and is
replaced by spaces). -/
def nonSpaceCount (cs : List Char) : Nat :=
  cs.countP (fun c => !(c = ' '))

/-- The while-loop of normalize_ingredients, with explicit fuel.  The fuel
nonSpaceCount is proved sufficient below (normalize_fixpoint): the loop
always reaches the no-match state before the fuel runs out, so this equals
the unbounded Python loop. -/
def normLoopFuel : Nat → List Char → List Char
  | 0, cs => cs
  | n + 1, cs =>
    match findMatchAux cs with
    | none => cs
    | some (s, e) => normLoopFuel n (blankRange cs s e)

/-- normalize_ingredients: repeatedly blank the first BLACKLIST_RE match
until none remains. -/
def normalize_ingredients (cs : List Char) : List Char :=
  normLoopFuel (nonSpaceCount cs) cs

/-! ## Matchable-substring counting (used to examine the termination
argument): fullMatch decides whether BLACKLIST_RE matches an entire string. -/

/-- Does  \d+(?:[,.]\d+)?\s*%  match the whole list? -/
def fullAlt1 (cs : List Char) : Bool :=
  let d := digitRun cs
  if d = 0 then false
  else
    match fracLen (cs.drop d) with
    | none => false
    | some g =>
      let sp := spaceRun (cs.drop (d + g))
      cs.drop (d + g + sp) == ['%']

/-- Does  \d{3,5}[a-z]*  match the whole list? -/
def fullECode (l : List Char) : Bool :=
  let r := digitRun l
  3 ≤ r && r ≤ 5 && (l.drop r).all isLowerAZ

/-- Does  E ?\d{3,5}[a-z]*  match the whole list? -/
def fullAlt2 (cs : List Char) : Bool :=
  match cs with
  | 'E' :: ' ' :: cs₂ => fullECode cs₂
  | 'E' :: cs₁ => fullECode cs₁
  | _ => false

/-- Does the class [_•:0-9] match the whole list? -/
def fullAlt3 (cs : List Char) : Bool :=
  match cs with
  | [c] => c = '_' || c = '•' || c = ':' || isDigitChar c
  | _ => false

/-- Does BLACKLIST_RE match the whole list? -/
def fullMatchB (cs : List Char) : Bool :=
  fullAlt1 cs || fullAlt2 cs || fullAlt3 cs

/-- Python slice  cs[a:b]. -/
def sliceList (cs : List Char) (a b : Nat) : List Char :=
  (cs.take b).drop a

/-- The number of substrings (identified by their (start, end) span) that
BLACKLIST_RE matches entirely: the count of matchable substrings. -/
def matchSpanCount (cs : List Char) : Nat :=
  ((List.range (cs.length + 1)).map (fun i =>
    ((List.range (cs.length + 1)).filter
      (fun j => i < j && fullMatchB (sliceList cs i j))).length)).sum

/-! ## Segmenter and the data model -/

/-- SPLITTER_CHAR from the source. -/
def SPLITTER_CHAR : List Char := ['(', ')', ',', ';', '[', ']', '-', '{', '}']

/-- The for-loop of process_ingredients: walks the normalized text with the
running index and the start of the current slot, producing the recorded
offsets and the blanked character list (separators replaced by spaces).
The trailing  if start_idx != len(normalized)  test is the base case. -/
def segmentLoop : List Char → Nat → Nat → List (Nat × Nat) × List Char
  | [], idx, start => (if start = idx then [] else [(start, idx)], [])
  | c :: rest, idx, start =>
    if SPLITTER_CHAR.contains c then
      ((start, idx) :: (segmentLoop rest (idx + 1) (idx + 1)).1,
        ' ' :: (segmentLoop rest (idx + 1) (idx + 1)).2)
    else
      ((segmentLoop rest (idx + 1) start).1,
        c :: (segmentLoop rest (idx + 1) start).2)

/-- The Ingredients dataclass. -/
structure Ingredients where
  text : List Char
  normalized : List Char
  offsets : List (Nat × Nat)
deriving DecidableEq, Repr

/-- process_ingredients from the source. -/
def process_ingredients (ingredient_text : List Char) : Ingredients :=
  let normalized := normalize_ingredients ingredient_text
  let seg := segmentLoop normalized 0 0
  ⟨ingredient_text, seg.2, seg.1⟩

/-- The TermCorrection dataclass. -/
structure TermCorrection where
  original : List Char
  correction : List Char
  start_offset : Nat
  end_offset : Nat
deriving DecidableEq, Repr

/-- The Correction dataclass. -/
structure Correction where
  term_corrections : List TermCorrection
  score : Int
deriving DecidableEq, Repr

/-- One token as returned by the Elasticsearch analyze endpoint: the keys
token, start_offset and end_offset of the token dict. -/
structure ESToken where
  token : List Char
  start_offset : Nat
  end_offset : Nat
deriving DecidableEq, Repr

/-! ## Python string methods (ASCII model) used by format_corrections -/

/-- Python str.lower(). -/
def pyLower (s : List Char) : List Char := s.map Char.toLower

/-- Python str.upper(). -/
def pyUpper (s : List Char) : List Char := s.map Char.toUpper

/-- Python str.capitalize(): first character uppercased, the rest
lowercased. -/
def pyCapitalize : List Char → List Char
  | [] => []
  | c :: rest => Char.toUpper c :: rest.map Char.toLower

/-- A cased character (ASCII). -/
def isCased (c : Char) : Bool := c.isUpper || c.isLower

/-- Python str.isupper(): at least one cased character and no lowercase
character. -/
def pyIsUpper (s : List Char) : Bool :=
  s.any isCased && s.all (fun c => !c.isLower)

/-- Worker for Python str.istitle(): tracks whether the previous character
was cased and whether a cased character has been seen. -/
def istitleAux : List Char → Bool → Bool → Bool
  | [], _, found => found
  | c :: rest, prevCased, found =>
    if c.isUpper then
      if prevCased then false else istitleAux rest true true
    else if c.isLower then
      if !prevCased then false else istitleAux rest true true
    else istitleAux rest false found

/-- Python str.istitle(). -/
def pyIsTitle (s : List Char) : Bool := istitleAux s false false

/-! ## Reconciler: format_corrections -/

/-- The for-loop of format_corrections over the zipped token lists. -/
def formatLoop (offset : Nat) : List (ESToken × ESToken) → List TermCorrection
  | [] => []
  | (o, s) :: rest =>
    if pyLower o.token ≠ s.token then
      let token_str :=
        if pyIsUpper o.token then pyUpper s.token
        else if pyIsTitle o.token then pyCapitalize s.token
        else s.token
      ⟨o.token, token_str, offset + o.start_offset, offset + o.end_offset⟩ ::
        formatLoop offset rest
    else formatLoop offset rest

/-- format_corrections from the source; the raised
TokenLengthMismatchException is modelled as the none result. -/
def format_corrections (original_tokens suggestion_tokens : List ESToken)
    (offset : Nat) : Option (List TermCorrection) :=
  if original_tokens.length ≠ suggestion_tokens.length then none
  else some (formatLoop offset (original_tokens.zip suggestion_tokens))

/-- Modelled from the spec (section 4.5 Reconciler), for comparison with
format_corrections: emit a TermCorrection exactly at the indices where the
lowercased original token differs from the suggestion token, the
replacement case-transformed by the casing style of the original token, the offsets
shifted by the slot base offset. -/
def reconcile_spec (original_tokens suggestion_tokens : List ESToken)
    (offset : Nat) : List TermCorrection :=
  (original_tokens.zip suggestion_tokens).filterMap (fun p =>
    if pyLower p.1.token ≠ p.2.token then
      some ⟨p.1.token,
        if pyIsUpper p.1.token then pyUpper p.2.token
        else if pyIsTitle p.1.token then pyCapitalize p.2.token
        else p.2.token,
        offset + p.1.start_offset, offset + p.1.end_offset⟩
    else none)

/-! ## Text Rebuilder: generate_corrected_text -/

/-- Stable insertion used by sortCorr: an element is placed before the
first element whose start_offset is not smaller, which reproduces the
stable Python sorted with the start_offset key. -/
def insertCorr (c : TermCorrection) : List TermCorrection → List TermCorrection
  | [] => [c]
  | d :: rest =>
    if d.start_offset < c.start_offset then d :: insertCorr c rest
    else c :: d :: rest

/-- Stable sort by start_offset, extensionally equal to the stable Python
sorted(corrections) with the start_offset key. -/
def sortCorr : List TermCorrection → List TermCorrection
  | [] => []
  | c :: rest => insertCorr c (sortCorr rest)

/-- The fragment-collecting loop of generate_corrected_text: the option
argument is the last_correction variable. -/
def rebuildFragments (text : List Char) :
    Option TermCorrection → List TermCorrection → List Char
  | none, [] => []
  | some last, [] => text.drop last.end_offset
  | none, c :: rest =>
    text.take c.start_offset ++ c.correction ++ rebuildFragments text (some c) rest
  | some last, c :: rest =>
    sliceList text last.end_offset c.start_offset ++ c.correction ++
      rebuildFragments text (some c) rest

/-- generate_corrected_text from the source. -/
def generate_corrected_text (corrections : List TermCorrection)
    (text : List Char) : List Char :=
  rebuildFragments text none (sortCorr corrections)

/-! ## Suggestion client model and orchestration -/

/-- One ranked suggestion: an element of the options list (keys text and
score). -/
structure SuggestOption where
  text : List Char
  score : Int
deriving DecidableEq, Repr

/-- The per-slot payload r['suggest']['autocorrect'][0] of one msearch
response item. -/
structure SuggestResult where
  options : List SuggestOption
deriving DecidableEq, Repr

/-- One item of the responses list of the Elasticsearch msearch reply:
its HTTP-like status and its suggest payload (only read when the status is
200). -/
structure MsResponse where
  status : Nat
  suggest : SuggestResult
deriving DecidableEq, Repr

/-- _suggest_batch from the source: items with non-200 status are logged
and skipped; the surviving payloads are collected in order.  (The logging
itself is effect-free here; the returned list is exactly what the source
appends.) -/
def suggest_batch (responses : List MsResponse) : List SuggestResult :=
  responses.filterMap (fun r => if r.status = 200 then some r.suggest else none)

/-- The for-loop of generate_corrections over
enumerate(_suggest_batch(...)): idx is the enumeration counter, and
ingredients.offsets[idx] is looked up with it.  The tokenize argument
models the external analyze endpoint (a pure function of the text).  An
out-of-range offsets[idx] (Python IndexError) is modelled as none; the
TokenLengthMismatchException branch logs and continues. -/
def genCorrLoop (tokenize : List Char → List ESToken) (ing : Ingredients) :
    List SuggestResult → Nat → Option (List Correction)
  | [], _ => some []
  | sugg :: rest, idx =>
    match ing.offsets.get? idx with
    | none => none
    | some offs =>
      let normalized_ingredient := sliceList ing.normalized offs.1 offs.2
      match sugg.options with
      | [] => genCorrLoop tokenize ing rest (idx + 1)
      | opt :: _ =>
        let original_tokens := tokenize normalized_ingredient
        let suggestion_tokens := tokenize opt.text
        match format_corrections original_tokens suggestion_tokens offs.1 with
        | some term_corrections =>
          (genCorrLoop tokenize ing rest (idx + 1)).map
            (fun cs => ⟨term_corrections, opt.score⟩ :: cs)
        | none => genCorrLoop tokenize ing rest (idx + 1)

/-- generate_corrections from the source, with the external collaborators
made explicit: tokenize models the analyze endpoint and responses models
the msearch reply for the batched slot texts. -/
def generate_corrections (tokenize : List Char → List ESToken)
    (responses : List MsResponse) (ingredients_text : List Char) :
    Option (List Correction) :=
  genCorrLoop tokenize (process_ingredients ingredients_text)
    (suggest_batch responses) 0

/-! ## Properties of the matcher -/

theorem digitRun_le (cs : List Char) : digitRun cs ≤ cs.length := by
  induction cs with
  | nil => simp [digitRun]
  | cons c cs ih => simp only [digitRun, List.length_cons]; split <;> omega

theorem spaceRun_le (cs : List Char) : spaceRun cs ≤ cs.length := by
  induction cs with
  | nil => simp [spaceRun]
  | cons c cs ih => simp only [spaceRun, List.length_cons]; split <;> omega

theorem lowerRun_le (cs : List Char) : lowerRun cs ≤ cs.length := by
  induction cs with
  | nil => simp [lowerRun]
  | cons c cs ih => simp only [lowerRun, List.length_cons]; split <;> omega

theorem digitRun_pos {cs : List Char} (h : digitRun cs ≠ 0) :
    ∃ c cs', cs = c :: cs' ∧ isDigitChar c = true := by
  cases cs with
  | nil => simp [digitRun] at h
  | cons c cs' =>
    refine ⟨c, cs', rfl, ?_⟩
    by_contra hc
    rw [Bool.not_eq_true] at hc
    simp [digitRun, hc] at h

theorem digit_ne_space {c : Char} (h : isDigitChar c = true) : c ≠ ' ' := by
  rintro rfl
  exact absurd h (by decide)

theorem drop_cons_lt {cs : List Char} {n : Nat} (h : cs.drop n ≠ []) :
    n < cs.length := by
  by_contra hn
  push_neg at hn
  exact h (List.drop_eq_nil_of_le hn)

theorem alt1_spec {cs : List Char} {len : Nat} (h : alt1 cs = some len) :
    1 ≤ len ∧ len ≤ cs.length ∧ ∃ c cs', cs = c :: cs' ∧ c ≠ ' ' := by
  unfold alt1 at h
  split at h
  · exact absurd h (by simp)
  · rename_i hd
    split at h
    · exact absurd h (by simp)
    · rename_i g hfrac
      split at h
      · rename_i hpc
        obtain ⟨c, cs', hcs, hdig⟩ := digitRun_pos hd
        have hne :
            cs.drop (digitRun cs + g + spaceRun (cs.drop (digitRun cs + g))) ≠ [] := by
          intro hnil
          rw [hnil] at hpc
          simp at hpc
        have hlt := drop_cons_lt hne
        injection h with h
        subst h
        exact ⟨by omega, by omega, c, cs', hcs, digit_ne_space hdig⟩
      · exact absurd h (by simp)

theorem eCodeLen_spec {l : List Char} {pre len : Nat} (h : eCodeLen l pre = some len) :
    1 ≤ len ∧ len ≤ pre + l.length ∧ pre ≤ len := by
  unfold eCodeLen at h
  split at h
  · rename_i hd
    injection h with h
    subst h
    have h1 := digitRun_le l
    have h2 := lowerRun_le (l.drop (min (digitRun l) 5))
    rw [List.length_drop] at h2
    have h3 : min (digitRun l) 5 ≤ digitRun l := Nat.min_le_left _ _
    omega
  · exact absurd h (by simp)

theorem alt2_spec {cs : List Char} {len : Nat} (h : alt2 cs = some len) :
    1 ≤ len ∧ len ≤ cs.length ∧ ∃ c cs', cs = c :: cs' ∧ c ≠ ' ' := by
  unfold alt2 at h
  split at h
  · exact absurd h (by simp)
  · rename_i c rest
    split at h
    · rename_i hc
      subst hc
      have hE : ('E' : Char) ≠ ' ' := by decide
      split at h
      · simp [eCodeLen, digitRun] at h
      · rename_i c2 rest2
        split at h
        · obtain ⟨h1, h2, _⟩ := eCodeLen_spec h
          refine ⟨h1, ?_, _, _, rfl, hE⟩
          simp only [List.tail_cons, List.length_cons] at h2 ⊢
          omega
        · obtain ⟨h1, h2, _⟩ := eCodeLen_spec h
          refine ⟨h1, ?_, _, _, rfl, hE⟩
          simp only [List.length_cons] at h2 ⊢
          omega
    · exact absurd h (by simp)

theorem alt3_spec {cs : List Char} {len : Nat} (h : alt3 cs = some len) :
    1 ≤ len ∧ len ≤ cs.length ∧ ∃ c cs', cs = c :: cs' ∧ c ≠ ' ' := by
  unfold alt3 at h
  split at h
  · rename_i c rest
    split at h
    · rename_i hcls
      injection h with h
      subst h
      refine ⟨le_refl 1, by simp, c, rest, rfl, ?_⟩
      rintro rfl
      revert hcls
      decide
    · exact absurd h (by simp)
  · exact absurd h (by simp)

theorem matchAt_spec {cs : List Char} {len : Nat} (h : matchAt cs = some len) :
    1 ≤ len ∧ len ≤ cs.length ∧ ∃ c cs', cs = c :: cs' ∧ c ≠ ' ' := by
  unfold matchAt at h
  split at h
  · rename_i ha
    injection h with h
    subst h
    exact alt1_spec ha
  · split at h
    · rename_i ha
      injection h with h
      subst h
      exact alt2_spec ha
    · exact alt3_spec h

theorem findMatchAux_spec {cs : List Char} {s e : Nat}
    (h : findMatchAux cs = some (s, e)) :
    s < e ∧ e ≤ cs.length ∧ ∃ c cs', cs.drop s = c :: cs' ∧ c ≠ ' ' := by
  induction cs generalizing s e with
  | nil => simp [findMatchAux] at h
  | cons c rest ih =>
    unfold findMatchAux at h
    split at h
    · rename_i len hm
      simp only [Option.some.injEq, Prod.mk.injEq] at h
      obtain ⟨rfl, rfl⟩ := h
      obtain ⟨h1, h2, c0, cs0, hcs, hne⟩ := matchAt_spec hm
      exact ⟨h1, h2, c0, cs0, by simpa using hcs, hne⟩
    · split at h
      · rename_i s' e' hrec
        simp only [Option.some.injEq, Prod.mk.injEq] at h
        obtain ⟨rfl, rfl⟩ := h
        obtain ⟨ih1, ih2, c0, cs0, hdrop, hne⟩ := ih hrec
        refine ⟨by omega, ?_, c0, cs0, ?_, hne⟩
        · simp only [List.length_cons]
          omega
        · simpa [List.drop_succ_cons] using hdrop
      · exact absurd h (by simp)

/-! ## The masking loop: length preservation, termination, fixpoint -/

theorem blankRange_length {cs : List Char} {s e : Nat} (h1 : s ≤ e)
    (h2 : e ≤ cs.length) : (blankRange cs s e).length = cs.length := by
  simp only [blankRange, List.length_append, List.length_take,
    List.length_replicate, List.length_drop]
  omega

theorem countP_replicate_space (k : Nat) :
    (List.replicate k ' ').countP (fun c => !(c = ' ')) = 0 := by
  induction k with
  | zero => simp
  | succ n ih => simp [List.replicate_succ, List.countP_cons, ih]

theorem nonSpaceCount_blank_lt {cs : List Char} {s e : Nat}
    (h : findMatchAux cs = some (s, e)) :
    nonSpaceCount (blankRange cs s e) < nonSpaceCount cs := by
  obtain ⟨hse, hel, c0, cs0, hdrop, hne⟩ := findMatchAux_spec h
  unfold nonSpaceCount blankRange
  rw [List.countP_append, List.countP_append]
  have hkey : cs.countP (fun c => !(c = ' ')) =
      (cs.take s).countP (fun c => !(c = ' ')) +
        (cs.drop s).countP (fun c => !(c = ' ')) := by
    conv_lhs => rw [← List.take_append_drop s cs]
    rw [List.countP_append]
  have hdropE : cs.drop e = cs0.drop (e - s - 1) := by
    have h' : cs.drop e = (cs.drop s).drop (e - s) := by
      rw [List.drop_drop]
      congr 1
      omega
    rw [h', hdrop, show e - s = (e - s - 1) + 1 by omega, List.drop_succ_cons]
    congr 1
  have hle : (cs.drop e).countP (fun c => !(c = ' ')) ≤
      cs0.countP (fun c => !(c = ' ')) := by
    rw [hdropE]
    exact (List.drop_sublist _ _).countP_le _
  have hcs0 : (cs.drop s).countP (fun c => !(c = ' ')) =
      cs0.countP (fun c => !(c = ' ')) + 1 := by
    rw [hdrop, List.countP_cons]
    simp [hne]
  have hZ := countP_replicate_space (e - s)
  omega

theorem normLoopFuel_length : ∀ (n : Nat) (cs : List Char),
    (normLoopFuel n cs).length = cs.length := by
  intro n
  induction n with
  | zero => intro cs; rfl
  | succ n ih =>
    intro cs
    unfold normLoopFuel
    split
    · rfl
    · rename_i s e hm
      rw [ih]
      obtain ⟨h1, h2, _⟩ := findMatchAux_spec hm
      exact blankRange_length (by omega) h2

theorem normalize_length (cs : List Char) :
    (normalize_ingredients cs).length = cs.length :=
  normLoopFuel_length _ _

theorem normLoopFuel_no_match {cs : List Char} (h : findMatchAux cs = none) :
    ∀ n, normLoopFuel n cs = cs := by
  intro n
  cases n with
  | zero => rfl
  | succ n => unfold normLoopFuel; rw [h]

theorem normLoopFuel_fix : ∀ (n : Nat) (cs : List Char), nonSpaceCount cs ≤ n →
    findMatchAux (normLoopFuel n cs) = none := by
  intro n
  induction n with
  | zero =>
    intro cs hc
    cases hm : findMatchAux cs with
    | none => exact hm
    | some p =>
      obtain ⟨s, e⟩ := p
      obtain ⟨_, _, c0, cs0, hdrop, hne⟩ := findMatchAux_spec hm
      have h1 : nonSpaceCount (cs.drop s) ≤ nonSpaceCount cs :=
        (List.drop_sublist _ _).countP_le _
      have h2 : 1 ≤ nonSpaceCount (cs.drop s) := by
        unfold nonSpaceCount
        rw [hdrop, List.countP_cons]
        simp [hne]
      omega
  | succ n ih =>
    intro cs hc
    unfold normLoopFuel
    cases hm : findMatchAux cs with
    | none => exact hm
    | some p =>
      obtain ⟨s, e⟩ := p
      show findMatchAux (normLoopFuel n (blankRange cs s e)) = none
      refine ih _ ?_
      have := nonSpaceCount_blank_lt hm
      omega

theorem normalize_no_match (cs : List Char) :
    findMatchAux (normalize_ingredients cs) = none :=
  normLoopFuel_fix _ _ (le_refl _)

/-- C10: normalize_ingredients is idempotent: the masking loop only exits
when the output contains no remaining BLACKLIST_RE match, so running it
again finds no match and returns its input unchanged. -/
theorem normalize_ingredients_idempotent (t : List Char) :
    normalize_ingredients (normalize_ingredients t) = normalize_ingredients t :=
  normLoopFuel_no_match (normalize_no_match t) _

theorem spaces_never_match (k : Nat) :
    findMatchAux (List.replicate k ' ') = none := by
  induction k with
  | zero => rfl
  | succ n ih =>
    rw [List.replicate_succ]
    unfold findMatchAux
    rw [← List.replicate_succ]
    have hm : matchAt (List.replicate (n + 1) ' ') = none := by
      rw [List.replicate_succ]
      cases hm' : matchAt (' ' :: List.replicate n ' ') with
      | none => rfl
      | some len =>
        obtain ⟨_, _, c0, cs0, hcs, hne⟩ := matchAt_spec hm'
        rw [List.cons.injEq] at hcs
        exact absurd hcs.1.symm hne
    rw [List.replicate_succ] at hm ⊢
    rw [hm, ih]

/-! ## Segmenter invariants -/

theorem segmentLoop_chars_length : ∀ (cs : List Char) (idx start : Nat),
    ((segmentLoop cs idx start).2).length = cs.length := by
  intro cs
  induction cs with
  | nil => intro idx start; simp [segmentLoop]
  | cons c rest ih =>
    intro idx start
    simp only [segmentLoop]
    split
    · simp [ih]
    · simp [ih]

theorem segmentLoop_offsets_spec : ∀ (cs : List Char) (idx start : Nat),
    start ≤ idx →
    (∀ p ∈ (segmentLoop cs idx start).1,
        start ≤ p.1 ∧ p.1 ≤ p.2 ∧ p.2 ≤ idx + cs.length) ∧
    List.Chain' (fun p q => p.2 < q.1) (segmentLoop cs idx start).1 := by
  intro cs
  induction cs with
  | nil =>
    intro idx start hsi
    constructor
    · intro p hp
      simp only [segmentLoop] at hp
      split at hp
      · simp at hp
      · simp only [List.mem_singleton] at hp
        subst hp
        exact ⟨le_refl _, hsi, by simp⟩
    · simp only [segmentLoop]
      split
      · simp
      · simp
  | cons c rest ih =>
    intro idx start hsi
    have ih1 := ih (idx + 1) (idx + 1) (le_refl _)
    have ih2 := ih (idx + 1) start (by omega)
    constructor
    · intro p hp
      simp only [segmentLoop] at hp
      split at hp
      · simp only [List.mem_cons] at hp
        rcases hp with rfl | hp
        · refine ⟨le_refl _, hsi, ?_⟩
          simp only [List.length_cons]
          omega
        · obtain ⟨h1, h2, h3⟩ := ih1.1 p hp
          refine ⟨by omega, h2, ?_⟩
          simp only [List.length_cons]
          omega
      · obtain ⟨h1, h2, h3⟩ := ih2.1 p hp
        refine ⟨h1, h2, ?_⟩
        simp only [List.length_cons]
        omega
    · simp only [segmentLoop]
      split
      · rw [List.chain'_cons']
        refine ⟨?_, ih1.2⟩
        intro q hq
        have hqmem : q ∈ (segmentLoop rest (idx + 1) (idx + 1)).1 :=
          List.mem_of_mem_head? hq
        have hb := (ih1.1 q hqmem).1
        show idx < q.1
        omega
      · exact ih2.2

/-! ## Reconciler and rebuilder lemmas -/

theorem formatLoop_eq_reconcile (off : Nat) :
    ∀ pairs : List (ESToken × ESToken),
    formatLoop off pairs = pairs.filterMap (fun p =>
      if pyLower p.1.token ≠ p.2.token then
        some ⟨p.1.token,
          if pyIsUpper p.1.token then pyUpper p.2.token
          else if pyIsTitle p.1.token then pyCapitalize p.2.token
          else p.2.token,
          off + p.1.start_offset, off + p.1.end_offset⟩
      else none) := by
  intro pairs
  induction pairs with
  | nil => rfl
  | cons p rest ih =>
    obtain ⟨o, s⟩ := p
    simp only [formatLoop, List.filterMap_cons]
    by_cases hne : pyLower o.token = s.token
    · simp [hne, ih]
    · simp [hne, ih]

theorem genCorrLoop_step_some (tokenize : List Char → List ESToken)
    (ing : Ingredients) (sugg : SuggestResult) (rest : List SuggestResult)
    (idx : Nat) (offs : Nat × Nat) (opt : SuggestOption)
    (opts : List SuggestOption) (tcs : List TermCorrection)
    (ho : ing.offsets.get? idx = some offs)
    (hs : sugg.options = opt :: opts)
    (hf : format_corrections (tokenize (sliceList ing.normalized offs.1 offs.2))
        (tokenize opt.text) offs.1 = some tcs) :
    genCorrLoop tokenize ing (sugg :: rest) idx =
      (genCorrLoop tokenize ing rest (idx + 1)).map
        (fun cs => ⟨tcs, opt.score⟩ :: cs) := by
  simp only [genCorrLoop, ho, hs, hf]

theorem genCorrLoop_step_none (tokenize : List Char → List ESToken)
    (ing : Ingredients) (sugg : SuggestResult) (rest : List SuggestResult)
    (idx : Nat) (offs : Nat × Nat) (opt : SuggestOption)
    (opts : List SuggestOption)
    (ho : ing.offsets.get? idx = some offs)
    (hs : sugg.options = opt :: opts)
    (hf : format_corrections (tokenize (sliceList ing.normalized offs.1 offs.2))
        (tokenize opt.text) offs.1 = none) :
    genCorrLoop tokenize ing (sugg :: rest) idx =
      genCorrLoop tokenize ing rest (idx + 1) := by
  simp only [genCorrLoop, ho, hs, hf]

/-! ## Claim theorems -/

/-- C1: the claim states that the Text Rebuilder applied to an empty list
of corrections returns the original text unchanged.  The code does not:
with no corrections, no fragment is ever appended (the final fragment is
only appended when a last correction exists), so generate_corrected_text
returns the empty string.  Evaluation at a failing input. -/
theorem rebuild_empty_corrections_not_identity :
    generate_corrected_text [] ['a', 'b', 'c'] = [] ∧
    generate_corrected_text [] ['a', 'b', 'c'] ≠ ['a', 'b', 'c'] :=
  ⟨rfl, by decide⟩

/-- C2: the claim states that a per-item backend failure only drops that
slot and every surviving response stays paired with the offsets of its own
slot.  The code filters the failed item out of the response list and then
pairs the survivors with offsets by their position in the filtered list,
so after the failure of slot 3 every later response shifts one slot to the
left: below, the suggestion sent back for slot 4 (text y, score 4) is
applied to the text and offsets (4, 5) of slot 3, and slot 5 with offsets
(8, 9) receives nothing.  Evaluation at the five-slot failing input. -/
theorem suggest_batch_failure_misaligns_slots :
    (process_ingredients ['a', ',', 'b', ',', 'c', ',', 'd', ',', 'e']).offsets =
      [(0, 1), (2, 3), (4, 5), (6, 7), (8, 9)] ∧
    generate_corrections (fun s => [⟨s, 0, s.length⟩])
      [⟨200, ⟨[⟨['v'], 1⟩]⟩⟩, ⟨200, ⟨[⟨['w'], 2⟩]⟩⟩, ⟨500, ⟨[⟨['x'], 3⟩]⟩⟩,
        ⟨200, ⟨[⟨['y'], 4⟩]⟩⟩, ⟨200, ⟨[⟨['z'], 5⟩]⟩⟩]
      ['a', ',', 'b', ',', 'c', ',', 'd', ',', 'e'] =
      some [⟨[⟨['a'], ['v'], 0, 1⟩], 1⟩, ⟨[⟨['b'], ['w'], 2, 3⟩], 2⟩,
        ⟨[⟨['c'], ['y'], 4, 5⟩], 4⟩, ⟨[⟨['d'], ['z'], 6, 7⟩], 5⟩] :=
  ⟨rfl, rfl⟩

/-- C3 counterexample: a slot whose tokens all match the suggestion is not
dropped: generate_corrections appends a Correction with an empty
term_corrections list (and the suggestion score), so the returned list has
one element, refuting the claim that such a slot contributes no element. -/
theorem zero_divergence_slot_not_dropped :
    generate_corrections (fun s => [⟨s, 0, s.length⟩])
      [⟨200, ⟨[⟨['a', 'b'], 7⟩]⟩⟩] ['a', 'b'] = some [⟨[], 7⟩] ∧
    (⟨[], 7⟩ : Correction).term_corrections = [] ∧
    ([(⟨[], 7⟩ : Correction)] : List Correction) ≠ [] :=
  ⟨rfl, rfl, by decide⟩

/-- C3 (amended): a slot with a non-empty options list whose two
tokenizations reconcile (in particular with zero divergent tokens, when
term_corrections is empty) contributes Correction(term_corrections, score)
to the result: it is kept as an empty Correction, not dropped.  Stated for
a single-slot text. -/
theorem generate_corrections_keeps_empty_correction
    (tokenize : List Char → List ESToken) (resp : MsResponse)
    (text : List Char) (opt : SuggestOption) (opts : List SuggestOption)
    (a b : Nat) (tcs : List TermCorrection)
    (h1 : resp.status = 200)
    (h2 : resp.suggest.options = opt :: opts)
    (h3 : (process_ingredients text).offsets = [(a, b)])
    (h4 : format_corrections
        (tokenize (sliceList (process_ingredients text).normalized a b))
        (tokenize opt.text) a = some tcs) :
    generate_corrections tokenize [resp] text = some [⟨tcs, opt.score⟩] := by
  have hbatch : suggest_batch [resp] = [resp.suggest] := by
    simp [suggest_batch, h1]
  have hstep := genCorrLoop_step_some tokenize (process_ingredients text)
    resp.suggest [] 0 (a, b) opt opts tcs (by rw [h3]; rfl) h2 h4
  unfold generate_corrections
  rw [hbatch, hstep]
  rfl

/-- C3 witness: the amended theorem applied at the concrete zero-divergence
input. -/
theorem generate_corrections_keeps_empty_correction_witness :
    (⟨200, ⟨[⟨['a', 'b'], 7⟩]⟩⟩ : MsResponse).status = 200 ∧
    generate_corrections (fun s => [⟨s, 0, s.length⟩])
      [⟨200, ⟨[⟨['a', 'b'], 7⟩]⟩⟩] ['a', 'b'] = some [⟨[], 7⟩] :=
  ⟨rfl, generate_corrections_keeps_empty_correction
    (fun s => [⟨s, 0, s.length⟩]) ⟨200, ⟨[⟨['a', 'b'], 7⟩]⟩⟩ ['a', 'b']
    ⟨['a', 'b'], 7⟩ [] 0 2 [] rfl rfl (by decide) (by decide)⟩

/-- C4 counterexample: on the input consisting of one separator character,
process_ingredients records the degenerate slot (0, 0), refuting the
claimed strict inequality start < end. -/
theorem process_ingredients_degenerate_slot :
    (process_ingredients ['(']).offsets = [(0, 0)] ∧
    ¬ (∀ p ∈ (process_ingredients ['(']).offsets, p.1 < p.2) := by
  refine ⟨rfl, ?_⟩
  decide

/-- C4 (amended): every slot (start, end) produced by process_ingredients
satisfies start ≤ end ≤ len(text) (the inequality start < end fails for
slots closed immediately at a separator, which are recorded with
start = end), and consecutive slots are strictly ordered and
non-overlapping: end of each slot is strictly below the start of the
next. -/
theorem process_ingredients_offsets_valid (t : List Char) :
    (∀ p ∈ (process_ingredients t).offsets, p.1 ≤ p.2 ∧ p.2 ≤ t.length) ∧
    List.Chain' (fun p q => p.2 < q.1) (process_ingredients t).offsets := by
  have h := segmentLoop_offsets_spec (normalize_ingredients t) 0 0 (le_refl 0)
  constructor
  · intro p hp
    have hp' : p ∈ (segmentLoop (normalize_ingredients t) 0 0).1 := hp
    obtain ⟨_, h2, h3⟩ := h.1 p hp'
    refine ⟨h2, ?_⟩
    have hl := normalize_length t
    omega
  · exact h.2

/-- C4 witness: the amended theorem applied at a concrete two-slot input. -/
theorem process_ingredients_offsets_valid_witness :
    (0, 1) ∈ (process_ingredients ['a', ',', 'b']).offsets ∧
    ((0 : Nat) ≤ 1 ∧ 1 ≤ (['a', ',', 'b'] : List Char).length) :=
  ⟨by decide, (process_ingredients_offsets_valid ['a', ',', 'b']).1 (0, 1) (by decide)⟩

/-- C5: the Normalizer and the Segmenter are length-preserving: the
normalized string has the length of the input, and so does the blanked
normalized string stored in the Ingredients value. -/
theorem normalizer_segmenter_length_invariance (t : List Char) :
    (normalize_ingredients t).length = t.length ∧
    (process_ingredients t).normalized.length = t.length := by
  refine ⟨normalize_length t, ?_⟩
  show ((segmentLoop (normalize_ingredients t) 0 0).2).length = t.length
  rw [segmentLoop_chars_length, normalize_length]

/-- C6: for equal-length token lists, format_corrections emits a
TermCorrection exactly at the indices where the lowercased original token
differs from the suggestion token; the replacement is the suggestion token
uppercased when the original is all-uppercase, capitalized when the
original is title-case, verbatim otherwise; and the emitted offsets are
the slot base offset plus the local offsets of the original token — i.e.
the code result coincides with the reconciliation described by the spec. -/
theorem format_corrections_refines_reconcile_spec
    (o s : List ESToken) (off : Nat) (h : o.length = s.length) :
    format_corrections o s off = some (reconcile_spec o s off) := by
  unfold format_corrections reconcile_spec
  rw [if_neg (not_not_intro h), formatLoop_eq_reconcile]

/-- C6 witness: the refinement applied to the FARINE / farinne example. -/
theorem format_corrections_refines_reconcile_spec_witness :
    ([⟨['F', 'A', 'R', 'I', 'N', 'E'], 0, 6⟩] : List ESToken).length =
      ([⟨['f', 'a', 'r', 'i', 'n', 'n', 'e'], 0, 7⟩] : List ESToken).length ∧
    format_corrections [⟨['F', 'A', 'R', 'I', 'N', 'E'], 0, 6⟩]
      [⟨['f', 'a', 'r', 'i', 'n', 'n', 'e'], 0, 7⟩] 3 =
      some (reconcile_spec [⟨['F', 'A', 'R', 'I', 'N', 'E'], 0, 6⟩]
        [⟨['f', 'a', 'r', 'i', 'n', 'n', 'e'], 0, 7⟩] 3) :=
  ⟨rfl, format_corrections_refines_reconcile_spec _ _ _ rfl⟩

/-- C7: format_corrections signals the token-count mismatch (modelled as
the none result of the raised TokenLengthMismatchException) iff the two
token lists have different lengths, and generate_corrections recovers
locally: a slot whose reconciliation signals the mismatch is discarded and
the loop continues with the next slot, never propagating the failure. -/
theorem token_mismatch_iff_and_local_recovery :
    (∀ (o s : List ESToken) (off : Nat),
        format_corrections o s off = none ↔ o.length ≠ s.length) ∧
    (∀ (tokenize : List Char → List ESToken) (ing : Ingredients)
        (sugg : SuggestResult) (rest : List SuggestResult) (idx : Nat)
        (offs : Nat × Nat) (opt : SuggestOption) (opts : List SuggestOption),
        ing.offsets.get? idx = some offs →
        sugg.options = opt :: opts →
        format_corrections (tokenize (sliceList ing.normalized offs.1 offs.2))
          (tokenize opt.text) offs.1 = none →
        genCorrLoop tokenize ing (sugg :: rest) idx =
          genCorrLoop tokenize ing rest (idx + 1)) := by
  constructor
  · intro o s off
    unfold format_corrections
    split
    · rename_i h
      simp [h]
    · rename_i h
      simp [h]
  · intro tokenize ing sugg rest idx offs opt opts ho hs hf
    exact genCorrLoop_step_none tokenize ing sugg rest idx offs opt opts ho hs hf

/-- C7 witness: one token against two signals the mismatch, and the
mismatching slot is skipped while the loop moves on. -/
theorem token_mismatch_iff_and_local_recovery_witness :
    format_corrections [⟨['a'], 0, 1⟩] [⟨['a'], 0, 1⟩, ⟨['a'], 0, 1⟩] 0 = none ∧
    genCorrLoop (fun s => if s.length = 1 then [⟨s, 0, 1⟩] else [])
      (process_ingredients ['a']) [⟨[⟨['x', 'y'], 3⟩]⟩] 0 =
      genCorrLoop (fun s => if s.length = 1 then [⟨s, 0, 1⟩] else [])
        (process_ingredients ['a']) [] 1 :=
  ⟨(token_mismatch_iff_and_local_recovery.1 _ _ _).mpr (by decide),
   token_mismatch_iff_and_local_recovery.2
     (fun s => if s.length = 1 then [⟨s, 0, 1⟩] else [])
     (process_ingredients ['a']) ⟨[⟨['x', 'y'], 3⟩]⟩ [] 0 (0, 1)
     ⟨['x', 'y'], 3⟩ [] (by decide) rfl (by decide)⟩

/-- C8: for a single correction c with start s and end e, the Text
Rebuilder returns text[:s] ++ c.correction ++ text[e:]. -/
theorem rebuild_single_correction_splice (t : List Char) (c : TermCorrection)
    (h1 : c.start_offset ≤ c.end_offset) (h2 : c.end_offset ≤ t.length) :
    generate_corrected_text [c] t =
      t.take c.start_offset ++ c.correction ++ t.drop c.end_offset := rfl

/-- C8 witness: the splice theorem applied at a concrete correction. -/
theorem rebuild_single_correction_splice_witness :
    (1 ≤ 2 ∧ 2 ≤ (['a', 'b', 'c'] : List Char).length) ∧
    generate_corrected_text [⟨['b'], ['X', 'Y'], 1, 2⟩] ['a', 'b', 'c'] =
      (['a', 'b', 'c'] : List Char).take 1 ++ ['X', 'Y'] ++
        (['a', 'b', 'c'] : List Char).drop 2 :=
  ⟨⟨by decide, by decide⟩,
    rebuild_single_correction_splice ['a', 'b', 'c'] ⟨['b'], ['X', 'Y'], 1, 2⟩
      (by decide) (by decide)⟩

/-- C9 counterexample: one iteration of the masking loop need not strictly
decrease the count of matchable substrings.  On E_123 the first match is
the underscore at (1, 2); blanking it yields E 123, in which the whole
string becomes a new match of the additive-code alternative (the inserted
space participates in it), and the count of substrings matched entirely by
BLACKLIST_RE stays 4. -/
theorem matchable_substring_count_not_decreasing :
    findMatchAux ['E', '_', '1', '2', '3'] = some (1, 2) ∧
    matchSpanCount (blankRange ['E', '_', '1', '2', '3'] 1 2) =
      matchSpanCount ['E', '_', '1', '2', '3'] := by
  refine ⟨rfl, ?_⟩
  decide

/-- C9 (amended): the masking loop of normalize_ingredients terminates.
Every match of BLACKLIST_RE contains a non-space character, is replaced by
spaces, and a run of spaces alone never matches, so each iteration
strictly decreases the count of non-space characters (not the count of
matchable substrings, which can stay equal) until no match remains; the
result of normalize_ingredients contains no match. -/
theorem masking_loop_terminates :
    (∀ t : List Char, findMatchAux (normalize_ingredients t) = none) ∧
    (∀ (cs : List Char) (s e : Nat), findMatchAux cs = some (s, e) →
        nonSpaceCount (blankRange cs s e) < nonSpaceCount cs) ∧
    (∀ k : Nat, findMatchAux (List.replicate k ' ') = none) :=
  ⟨fun t => normalize_no_match t,
   fun _ _ _ h => nonSpaceCount_blank_lt h,
   spaces_never_match⟩

/-- C9 witness: the amended theorem applied at the E_123 iteration and at
a concrete normalization. -/
theorem masking_loop_terminates_witness :
    findMatchAux (normalize_ingredients ['E', '_', '1', '2', '3']) = none ∧
    nonSpaceCount (blankRange ['E', '_', '1', '2', '3'] 1 2) <
      nonSpaceCount ['E', '_', '1', '2', '3'] :=
  ⟨masking_loop_terminates.1 ['E', '_', '1', '2', '3'],
   masking_loop_terminates.2.1 ['E', '_', '1', '2', '3'] 1 2 rfl⟩
